import Mathlib

/-!
Shallow embedding of `src/minify_gzip.py`, a PlatformIO pre-build script that
walks a data directory, minifies `.html`/`.css`/`.js` files (best effort),
gzips every non-`.gz` file at compression level 9, and afterwards deletes the
originals that were successfully compressed.

Modelling choices:
* FPaths and file names are `List Char` (the script manipulates them as strings;
  `os.path.join(root, file)` becomes `root ++ "/" ++ file`).
* The disk is an association list from paths to byte contents
  (bytes are `List Nat`).  `diskWrite` shadows earlier bindings, matching a
  filesystem overwrite; `diskErase` removes every binding of the key.
* The external collaborators (`minify_html.minify`, `rcssmin.cssmin`,
  `rjsmin.jsmin`, `gzip`) and the fallible OS calls (`open`-read, gzip write,
  `os.remove`) are oracles collected in `Env`.  A minifier oracle returning
  `none` stands for any exception raised inside the per-file `try` block
  (including a UTF-8 decode error); returning `some m` stands for the UTF-8
  encoding of a successfully minified result.  `gzipC lvl b` is the byte
  stream `gzip` produces for payload `b` at compression level `lvl`; a file
  whose content is `gzipC 9 b` is exactly a file that gunzips back to `b`.
* The `os.walk` enumeration is a list of `(root, filename)` pairs: the
  snapshot of regular files present when the walk visits their directory.
-/

namespace MinifyGzip

abbrev FPath : Type := List Char

abbrev Bytes : Type := List Nat

/-- A disk: association list from paths to raw byte contents. -/
abbrev Disk : Type := List (FPath × Bytes)

def diskLookup : Disk → FPath → Option Bytes
  | [], _ => none
  | (k, v) :: rest, p => if k = p then some v else diskLookup rest p

/-- Writing a file: the new binding shadows any earlier one. -/
def diskWrite (d : Disk) (k : FPath) (v : Bytes) : Disk := (k, v) :: d

/-- Deleting a file removes every binding of the path. -/
def diskErase : Disk → FPath → Disk
  | [], _ => []
  | (k', v) :: rest, k => if k' = k then diskErase rest k else (k', v) :: diskErase rest k

/-- Oracles for the external collaborators and the fallible OS operations. -/
structure Env where
  /-- minify_html.minify (with decode/encode): none = exception raised. -/
  minifyHtml : Bytes → Option Bytes
  /-- rcssmin.cssmin (with decode/encode): none = exception raised. -/
  cssmin : Bytes → Option Bytes
  /-- rjsmin.jsmin (with decode/encode): none = exception raised. -/
  jsmin : Bytes → Option Bytes
  /-- gzip compression: level, payload ↦ the bytes of the gzip member. -/
  gzipC : Nat → Bytes → Bytes
  /-- Whether opening/reading this path succeeds (given the file exists). -/
  readOk : FPath → Bool
  /-- Whether `gzip.open(path, "wb")` + write succeeds at this path. -/
  writeOk : FPath → Bool
  /-- Whether `os.remove(path)` succeeds. -/
  deleteOk : FPath → Bool

/-- The log lines the script prints, abstracted to events. -/
inductive LogEvent where
  | missingDir
  | skippedGz (p : FPath)
  | processing (p : FPath)
  | readError (p : FPath)
  | minifyWarn (p : FPath)
  | successMinified (p : FPath)
  | successNotMinified (p : FPath)
  | gzipError (p : FPath)
  | deleted (p : FPath)
  | deleteError (p : FPath)
  deriving DecidableEq

/-- Run state: the disk, the `files_to_delete` list, and the log. -/
structure RunState where
  disk : Disk
  toDelete : List FPath
  log : List LogEvent
  deriving DecidableEq

/-- Index of the last '.' in a file name, if any
(`s.rfind('.')` on the basename). -/
def lastDotIdx (s : List Char) : Option Nat :=
  match s.reverse.findIdx? (fun c => decide (c = '.')) with
  | none => none
  | some i => some (s.length - 1 - i)

/-- Python `os.path.splitext(file)[1]` on a basename: the extension starts at
the last dot, except that a basename whose characters before that dot are all
dots (e.g. the dot-file ".gz") has no extension. -/
def splitextExt (s : List Char) : List Char :=
  match lastDotIdx s with
  | none => []
  | some d => if (s.take d).any (fun c => decide (c ≠ '.')) then s.drop d else []

/-- `os.path.splitext(file)[1].lower()` of source line 45. -/
def fileExtLower (s : List Char) : List Char :=
  (splitextExt s).map Char.toLower

def gzExt : List Char := ['.', 'g', 'z']
def htmlExt : List Char := ['.', 'h', 't', 'm', 'l']
def cssExt : List Char := ['.', 'c', 's', 's']
def jsExt : List Char := ['.', 'j', 's']

/-- `os.path.join(root, file)`. -/
def mkFPath (root file : FPath) : FPath := root ++ '/' :: file

/-- Reading the raw bytes (source lines 54–59): `none` is a raised exception,
modelled as the read oracle failing or the file being absent. -/
def readResult (env : Env) (d : Disk) (p : FPath) : Option Bytes :=
  if env.readOk p then diskLookup d p else none

/-- Whether the extension is one of the recognized text types (line 65). -/
def isTextExt (ext : List Char) : Bool :=
  ext = htmlExt || ext = cssExt || ext = jsExt

/-- The minification attempt of lines 66–82 for a recognized extension:
`none` when the try block raised (also covering the UTF-8 decode),
`some m` when line 79 was reached with result `m`. -/
def minifyResult (env : Env) (ext : List Char) (b : Bytes) : Option Bytes :=
  if ext = htmlExt then env.minifyHtml b
  else if ext = cssExt then env.cssmin b
  else if ext = jsExt then env.jsmin b
  else none

/-- Line 85: `minified if minified else content` with Python truthiness, so an
empty (falsy) minified result falls back to the original bytes. -/
def chooseContent (m : Option Bytes) (b : Bytes) : Bytes :=
  match m with
  | some m' => if m' = [] then b else m'
  | none => b

/-- The per-file body of the walk loop (source lines 43–102). -/
def processFile (env : Env) (st : RunState) (root file : FPath) : RunState :=
  let file_path := mkFPath root file
  let file_ext := fileExtLower file
  -- line 48: skip files that are already gzipped
  if file_ext = gzExt then
    { st with log := st.log ++ [LogEvent.skippedGz file_path] }
  else
    let st1 : RunState := { st with log := st.log ++ [LogEvent.processing file_path] }
    match readResult env st1.disk file_path with
    | none => { st1 with log := st1.log ++ [LogEvent.readError file_path] }
    | some content_bytes =>
      let minified_content_bytes := minifyResult env file_ext content_bytes
      let is_minified : Bool := isTextExt file_ext && minified_content_bytes.isSome
      let st2 : RunState :=
        if isTextExt file_ext && minified_content_bytes.isNone then
          { st1 with log := st1.log ++ [LogEvent.minifyWarn file_path] }
        else st1
      let content_to_compress := chooseContent minified_content_bytes content_bytes
      let gzipped_file_path := file_path ++ gzExt
      -- lines 88–102: gzip-write at level 9; only on success is the original
      -- queued for deletion
      if env.writeOk gzipped_file_path then
        { disk := diskWrite st2.disk gzipped_file_path (env.gzipC 9 content_to_compress)
          toDelete := st2.toDelete ++ [file_path]
          log := st2.log ++
            [if is_minified then LogEvent.successMinified gzipped_file_path
             else LogEvent.successNotMinified gzipped_file_path] }
      else
        { st2 with log := st2.log ++ [LogEvent.gzipError file_path] }

/-- The walk loop over the snapshot of discovered `(root, file)` entries. -/
def runWalk (env : Env) (entries : List (FPath × FPath)) (st : RunState) : RunState :=
  match entries with
  | [] => st
  | e :: rest => runWalk env rest (processFile env st e.1 e.2)

/-- One iteration of the deferred-deletion loop (source lines 105–110). -/
def deleteOne (env : Env) (st : RunState) (p : FPath) : RunState :=
  if env.deleteOk p then
    { st with disk := diskErase st.disk p, log := st.log ++ [LogEvent.deleted p] }
  else
    { st with log := st.log ++ [LogEvent.deleteError p] }

/-- The deferred-deletion loop over a snapshot of `files_to_delete`. -/
def deleteLoop (env : Env) (l : List FPath) (st : RunState) : RunState :=
  match l with
  | [] => st
  | p :: rest => deleteLoop env rest (deleteOne env st p)

/-- The effect of the deferred-deletion loop on the disk alone. -/
def delDisk (env : Env) : List FPath → Disk → Disk
  | [], d => d
  | p :: rest, d => delDisk env rest (if env.deleteOk p then diskErase d p else d)

/-- Invariant of the `files_to_delete` list: every queued path already has its
`.gz` counterpart on disk, holding gzip output (compression level 9). -/
def gzWrittenInv (env : Env) (st : RunState) : Prop :=
  ∀ p ∈ st.toDelete, ∃ c, diskLookup st.disk (p ++ gzExt) = some (env.gzipC 9 c)

/-- Whole run of `minify_and_gzip_web_files` (source lines 24–112):
`dataDirIsDir` is the `os.path.isdir(data_dir)` test, `entries` the walk
snapshot, `d0` the initial disk. -/
def minify_and_gzip_web_files (env : Env) (dataDirIsDir : Bool)
    (entries : List (FPath × FPath)) (d0 : Disk) : RunState :=
  if dataDirIsDir then
    let st := runWalk env entries { disk := d0, toDelete := [], log := [] }
    deleteLoop env st.toDelete st
  else
    { disk := d0, toDelete := [], log := [LogEvent.missingDir] }

/-- A concrete environment for evaluating the model on closed inputs: gzip is
modelled as the injective framing `lvl :: payload`, every OS operation
succeeds, and the three minifier oracles are the given functions. -/
def envWith (mh mc mj : Bytes → Option Bytes) : Env :=
  { minifyHtml := mh
    cssmin := mc
    jsmin := mj
    gzipC := fun lvl b => lvl :: b
    readOk := fun _ => true
    writeOk := fun _ => true
    deleteOk := fun _ => true }

/-- A concrete environment whose minifiers all fail. -/
def envMinFail : Env := envWith (fun _ => none) (fun _ => none) (fun _ => none)

/-- A concrete environment whose minifiers succeed returning the empty string. -/
def envMinEmpty : Env := envWith (fun _ => some []) (fun _ => some []) (fun _ => some [])

/-- A concrete environment whose minifiers drop the last byte of the content. -/
def envMinDrop : Env :=
  envWith (fun b => some (b.dropLast)) (fun b => some (b.dropLast)) (fun b => some (b.dropLast))

/-- A concrete environment in which reading `d/bad.txt` fails. -/
def envReadFailBad : Env :=
  { envMinFail with readOk := fun p => decide (¬ p = mkFPath "d".data "bad.txt".data) }

/-- A concrete environment in which deleting `d/x.txt` fails. -/
def envDelFailX : Env :=
  { envMinFail with deleteOk := fun p => decide (¬ p = mkFPath "d".data "x.txt".data) }

theorem diskLookup_write (d : Disk) (k k' : FPath) (v : Bytes) :
    diskLookup (diskWrite d k v) k' = if k = k' then some v else diskLookup d k' := rfl

theorem diskLookup_erase (d : Disk) (k k' : FPath) :
    diskLookup (diskErase d k) k' = if k' = k then none else diskLookup d k' := by
  induction d with
  | nil =>
    simp only [diskErase, diskLookup]
    split <;> rfl
  | cons kv rest ih =>
    rcases kv with ⟨k1, v⟩
    simp only [diskErase, diskLookup]
    by_cases h1 : k1 = k
    · rw [if_pos h1, ih]
      by_cases h2 : k' = k
      · simp [h2]
      · have : ¬ k1 = k' := by rw [h1]; intro hc; exact h2 hc.symm
        simp [h2, this]
    · rw [if_neg h1]
      simp only [diskLookup]
      by_cases h3 : k1 = k'
      · have : ¬ k' = k := by intro hc; exact h1 (h3.trans hc)
        simp [h3, this]
      · rw [if_neg h3, ih]
        by_cases h2 : k' = k
        · simp [h2]
        · simp [h2, h3]

theorem processFile_skip (env : Env) (st : RunState) (root file : FPath)
    (h : fileExtLower file = gzExt) :
    processFile env st root file =
      { st with log := st.log ++ [LogEvent.skippedGz (mkFPath root file)] } := by
  simp [processFile, h]

theorem processFile_readFail (env : Env) (st : RunState) (root file : FPath)
    (h1 : ¬ fileExtLower file = gzExt)
    (h2 : readResult env st.disk (mkFPath root file) = none) :
    processFile env st root file =
      { st with log := st.log ++
          [LogEvent.processing (mkFPath root file),
           LogEvent.readError (mkFPath root file)] } := by
  simp [processFile, h1, h2]

theorem processFile_writeFail (env : Env) (st : RunState) (root file : FPath) (b : Bytes)
    (h1 : ¬ fileExtLower file = gzExt)
    (h2 : readResult env st.disk (mkFPath root file) = some b)
    (h3 : env.writeOk (mkFPath root file ++ gzExt) = false) :
    (processFile env st root file).disk = st.disk
    ∧ (processFile env st root file).toDelete = st.toDelete := by
  simp only [processFile, h1, if_false, h2, h3]
  split
  · next hcontra => exact Bool.noConfusion hcontra
  · split <;> simp

theorem processFile_success (env : Env) (st : RunState) (root file : FPath) (b : Bytes)
    (h1 : ¬ fileExtLower file = gzExt)
    (h2 : readResult env st.disk (mkFPath root file) = some b)
    (h3 : env.writeOk (mkFPath root file ++ gzExt) = true) :
    (processFile env st root file).disk
      = diskWrite st.disk (mkFPath root file ++ gzExt)
          (env.gzipC 9 (chooseContent (minifyResult env (fileExtLower file) b) b))
    ∧ (processFile env st root file).toDelete = st.toDelete ++ [mkFPath root file] := by
  simp only [processFile, h1, if_false, h2, h3, if_true]
  split <;> simp

theorem runWalk_append (env : Env) (a b : List (FPath × FPath)) (st : RunState) :
    runWalk env (a ++ b) st = runWalk env b (runWalk env a st) := by
  induction a generalizing st with
  | nil => rfl
  | cons e rest ih =>
    simp only [List.cons_append, runWalk]
    exact ih _

theorem processFile_disk_mono (env : Env) (st : RunState) (root file k : FPath) (v : Bytes)
    (h : diskLookup st.disk k = some v) :
    ∃ v', diskLookup (processFile env st root file).disk k = some v' := by
  by_cases h1 : fileExtLower file = gzExt
  · rw [processFile_skip env st root file h1]; exact ⟨v, h⟩
  · cases hr : readResult env st.disk (mkFPath root file) with
    | none => rw [processFile_readFail env st root file h1 hr]; exact ⟨v, h⟩
    | some b =>
      cases hw : env.writeOk (mkFPath root file ++ gzExt) with
      | false => rw [(processFile_writeFail env st root file b h1 hr hw).1]; exact ⟨v, h⟩
      | true =>
        rw [(processFile_success env st root file b h1 hr hw).1, diskLookup_write]
        by_cases hk : mkFPath root file ++ gzExt = k
        · exact ⟨_, if_pos hk⟩
        · rw [if_neg hk]; exact ⟨v, h⟩

theorem runWalk_disk_mono (env : Env) (entries : List (FPath × FPath)) (st : RunState)
    (k : FPath) (v : Bytes) (h : diskLookup st.disk k = some v) :
    ∃ v', diskLookup (runWalk env entries st).disk k = some v' := by
  induction entries generalizing st v with
  | nil => exact ⟨v, h⟩
  | cons e rest ih =>
    obtain ⟨v', hv'⟩ := processFile_disk_mono env st e.1 e.2 k v h
    exact ih _ v' hv'

theorem processFile_gz_preserve (env : Env) (st : RunState) (root file k : FPath)
    (h : ∃ c, diskLookup st.disk k = some (env.gzipC 9 c)) :
    ∃ c, diskLookup (processFile env st root file).disk k = some (env.gzipC 9 c) := by
  by_cases h1 : fileExtLower file = gzExt
  · rw [processFile_skip env st root file h1]; exact h
  · cases hr : readResult env st.disk (mkFPath root file) with
    | none => rw [processFile_readFail env st root file h1 hr]; exact h
    | some b =>
      cases hw : env.writeOk (mkFPath root file ++ gzExt) with
      | false => rw [(processFile_writeFail env st root file b h1 hr hw).1]; exact h
      | true =>
        rw [(processFile_success env st root file b h1 hr hw).1, diskLookup_write]
        by_cases hk : mkFPath root file ++ gzExt = k
        · exact ⟨_, if_pos hk⟩
        · rw [if_neg hk]; exact h

theorem runWalk_gz_preserve (env : Env) (entries : List (FPath × FPath)) (st : RunState)
    (k : FPath) (h : ∃ c, diskLookup st.disk k = some (env.gzipC 9 c)) :
    ∃ c, diskLookup (runWalk env entries st).disk k = some (env.gzipC 9 c) := by
  induction entries generalizing st with
  | nil => exact h
  | cons e rest ih => exact ih _ (processFile_gz_preserve env st e.1 e.2 k h)

theorem processFile_toDelete_shape (env : Env) (st : RunState) (root file : FPath) :
    (processFile env st root file).toDelete = st.toDelete
    ∨ ((processFile env st root file).toDelete = st.toDelete ++ [mkFPath root file]
       ∧ ¬ fileExtLower file = gzExt) := by
  by_cases h1 : fileExtLower file = gzExt
  · rw [processFile_skip env st root file h1]; exact Or.inl rfl
  · cases hr : readResult env st.disk (mkFPath root file) with
    | none => rw [processFile_readFail env st root file h1 hr]; exact Or.inl rfl
    | some b =>
      cases hw : env.writeOk (mkFPath root file ++ gzExt) with
      | false => exact Or.inl (processFile_writeFail env st root file b h1 hr hw).2
      | true => exact Or.inr ⟨(processFile_success env st root file b h1 hr hw).2, h1⟩

theorem runWalk_toDelete_mono (env : Env) (entries : List (FPath × FPath)) (st : RunState)
    (p : FPath) (h : p ∈ st.toDelete) : p ∈ (runWalk env entries st).toDelete := by
  induction entries generalizing st with
  | nil => exact h
  | cons e rest ih =>
    apply ih
    rcases processFile_toDelete_shape env st e.1 e.2 with hs | ⟨hs, _⟩ <;> rw [hs]
    · exact h
    · exact List.mem_append_left _ h

theorem runWalk_toDelete_src (env : Env) (entries : List (FPath × FPath)) (st : RunState)
    (p : FPath) (h : p ∈ (runWalk env entries st).toDelete) :
    p ∈ st.toDelete
    ∨ ∃ e ∈ entries, p = mkFPath e.1 e.2 ∧ ¬ fileExtLower e.2 = gzExt := by
  induction entries generalizing st with
  | nil => exact Or.inl h
  | cons e rest ih =>
    rcases ih _ h with h' | ⟨e', he', hp⟩
    · rcases processFile_toDelete_shape env st e.1 e.2 with hs | ⟨hs, hext⟩
      · rw [hs] at h'; exact Or.inl h'
      · rw [hs] at h'
        rcases List.mem_append.mp h' with h'' | h''
        · exact Or.inl h''
        · refine Or.inr ⟨e, List.mem_cons_self _ _, ?_, hext⟩
          simpa using h''
    · exact Or.inr ⟨e', List.mem_cons_of_mem _ he', hp⟩

theorem processFile_nowrite (env : Env) (st : RunState) (root file k : FPath)
    (h : fileExtLower file = gzExt ∨ ¬ mkFPath root file ++ gzExt = k) :
    diskLookup (processFile env st root file).disk k = diskLookup st.disk k := by
  by_cases h1 : fileExtLower file = gzExt
  · rw [processFile_skip env st root file h1]
  · cases hr : readResult env st.disk (mkFPath root file) with
    | none => rw [processFile_readFail env st root file h1 hr]
    | some b =>
      cases hw : env.writeOk (mkFPath root file ++ gzExt) with
      | false => rw [(processFile_writeFail env st root file b h1 hr hw).1]
      | true =>
        rw [(processFile_success env st root file b h1 hr hw).1, diskLookup_write]
        rcases h with h | h
        · exact absurd h h1
        · rw [if_neg h]

theorem runWalk_nowrite (env : Env) (entries : List (FPath × FPath)) (st : RunState)
    (k : FPath)
    (h : ∀ e ∈ entries, fileExtLower e.2 = gzExt ∨ ¬ mkFPath e.1 e.2 ++ gzExt = k) :
    diskLookup (runWalk env entries st).disk k = diskLookup st.disk k := by
  induction entries generalizing st with
  | nil => rfl
  | cons e rest ih =>
    rw [runWalk, ih _ (fun e' he' => h e' (List.mem_cons_of_mem _ he')),
      processFile_nowrite env st e.1 e.2 k (h e (List.mem_cons_self _ _))]

theorem processFile_log_irrel (env : Env) (st st' : RunState) (root file : FPath)
    (hd : st.disk = st'.disk) (ht : st.toDelete = st'.toDelete) :
    (processFile env st root file).disk = (processFile env st' root file).disk
    ∧ (processFile env st root file).toDelete = (processFile env st' root file).toDelete := by
  by_cases h1 : fileExtLower file = gzExt
  · rw [processFile_skip env st root file h1, processFile_skip env st' root file h1]
    exact ⟨hd, ht⟩
  · cases hr : readResult env st.disk (mkFPath root file) with
    | none =>
      have hr' : readResult env st'.disk (mkFPath root file) = none := by rw [← hd]; exact hr
      rw [processFile_readFail env st root file h1 hr,
        processFile_readFail env st' root file h1 hr']
      exact ⟨hd, ht⟩
    | some b =>
      have hr' : readResult env st'.disk (mkFPath root file) = some b := by rw [← hd]; exact hr
      cases hw : env.writeOk (mkFPath root file ++ gzExt) with
      | false =>
        obtain ⟨hd1, ht1⟩ := processFile_writeFail env st root file b h1 hr hw
        obtain ⟨hd2, ht2⟩ := processFile_writeFail env st' root file b h1 hr' hw
        exact ⟨by rw [hd1, hd2, hd], by rw [ht1, ht2, ht]⟩
      | true =>
        obtain ⟨hd1, ht1⟩ := processFile_success env st root file b h1 hr hw
        obtain ⟨hd2, ht2⟩ := processFile_success env st' root file b h1 hr' hw
        exact ⟨by rw [hd1, hd2, hd], by rw [ht1, ht2, ht]⟩

theorem runWalk_log_irrel (env : Env) (entries : List (FPath × FPath)) (st st' : RunState)
    (hd : st.disk = st'.disk) (ht : st.toDelete = st'.toDelete) :
    (runWalk env entries st).disk = (runWalk env entries st').disk
    ∧ (runWalk env entries st).toDelete = (runWalk env entries st').toDelete := by
  induction entries generalizing st st' with
  | nil => exact ⟨hd, ht⟩
  | cons e rest ih =>
    obtain ⟨hd1, ht1⟩ := processFile_log_irrel env st st' e.1 e.2 hd ht
    exact ih _ _ hd1 ht1

theorem runWalk_written (env : Env) (entries : List (FPath × FPath)) (st : RunState)
    (root file : FPath)
    (hmem : (root, file) ∈ entries)
    (h1 : ¬ fileExtLower file = gzExt)
    (hro : env.readOk (mkFPath root file) = true)
    (hwo : env.writeOk (mkFPath root file ++ gzExt) = true)
    (hp : ∃ v, diskLookup st.disk (mkFPath root file) = some v) :
    ∃ c, diskLookup (runWalk env entries st).disk (mkFPath root file ++ gzExt)
      = some (env.gzipC 9 c) := by
  induction entries generalizing st with
  | nil => cases hmem
  | cons e rest ih =>
    rcases List.mem_cons.mp hmem with he | he
    · obtain ⟨v, hv⟩ := hp
      have hr : readResult env st.disk (mkFPath root file) = some v := by
        rw [readResult, hro, if_pos rfl]; exact hv
      rw [runWalk, ← he]
      apply runWalk_gz_preserve
      rw [(processFile_success env st root file v h1 hr hwo).1, diskLookup_write, if_pos rfl]
      exact ⟨_, rfl⟩
    · obtain ⟨v, hv⟩ := hp
      exact ih _ he (processFile_disk_mono env st e.1 e.2 _ v hv)

theorem runWalk_queued (env : Env) (entries : List (FPath × FPath)) (st : RunState)
    (root file : FPath)
    (hmem : (root, file) ∈ entries)
    (h1 : ¬ fileExtLower file = gzExt)
    (hro : env.readOk (mkFPath root file) = true)
    (hwo : env.writeOk (mkFPath root file ++ gzExt) = true)
    (hp : ∃ v, diskLookup st.disk (mkFPath root file) = some v) :
    mkFPath root file ∈ (runWalk env entries st).toDelete := by
  induction entries generalizing st with
  | nil => cases hmem
  | cons e rest ih =>
    rcases List.mem_cons.mp hmem with he | he
    · obtain ⟨v, hv⟩ := hp
      have hr : readResult env st.disk (mkFPath root file) = some v := by
        rw [readResult, hro, if_pos rfl]; exact hv
      rw [runWalk, ← he]
      apply runWalk_toDelete_mono
      rw [(processFile_success env st root file v h1 hr hwo).2]
      exact List.mem_append_right _ (List.mem_singleton.mpr rfl)
    · obtain ⟨v, hv⟩ := hp
      exact ih _ he (processFile_disk_mono env st e.1 e.2 _ v hv)

theorem deleteLoop_disk (env : Env) (l : List FPath) (st : RunState) :
    (deleteLoop env l st).disk = delDisk env l st.disk
    ∧ (deleteLoop env l st).toDelete = st.toDelete := by
  induction l generalizing st with
  | nil => exact ⟨rfl, rfl⟩
  | cons p rest ih =>
    rw [deleteLoop, delDisk]
    rcases ih (deleteOne env st p) with ⟨ihd, iht⟩
    constructor
    · rw [ihd]
      by_cases hdel : env.deleteOk p = true
      · rw [deleteOne, if_pos hdel, if_pos hdel]
      · rw [deleteOne, if_neg hdel,
          if_neg (by revert hdel; cases env.deleteOk p <;> simp)]
    · rw [iht, deleteOne]
      by_cases hdel : env.deleteOk p = true
      · rw [if_pos hdel]
      · rw [if_neg hdel]

theorem delDisk_none (env : Env) (l : List FPath) (d : Disk) (k : FPath)
    (h : diskLookup d k = none) : diskLookup (delDisk env l d) k = none := by
  induction l generalizing d with
  | nil => exact h
  | cons p rest ih =>
    rw [delDisk]
    apply ih
    by_cases hdel : env.deleteOk p = true
    · rw [if_pos hdel, diskLookup_erase]
      split <;> simp [h]
    · rw [if_neg hdel]; exact h

theorem delDisk_mem (env : Env) (l : List FPath) (d : Disk) (p : FPath)
    (hmem : p ∈ l) (hdel : env.deleteOk p = true) :
    diskLookup (delDisk env l d) p = none := by
  induction l generalizing d with
  | nil => cases hmem
  | cons q rest ih =>
    rw [delDisk]
    by_cases hq : q = p
    · subst hq
      apply delDisk_none
      rw [if_pos hdel, diskLookup_erase, if_pos rfl]
    · rcases List.mem_cons.mp hmem with h' | h'
      · exact absurd h'.symm hq
      · exact ih _ h'

theorem delDisk_notmem (env : Env) (l : List FPath) (d : Disk) (k : FPath)
    (hmem : ¬ k ∈ l) : diskLookup (delDisk env l d) k = diskLookup d k := by
  induction l generalizing d with
  | nil => rfl
  | cons q rest ih =>
    rw [delDisk]
    have hk : ¬ k ∈ rest := fun h => hmem (List.mem_cons_of_mem _ h)
    rw [ih _ hk]
    by_cases hdel : env.deleteOk q = true
    · rw [if_pos hdel, diskLookup_erase,
        if_neg (fun h => hmem (by rw [h]; exact List.mem_cons_self _ _))]
    · rw [if_neg hdel]

theorem processFile_gzInv (env : Env) (st : RunState) (root file : FPath)
    (h : gzWrittenInv env st) : gzWrittenInv env (processFile env st root file) := by
  by_cases h1 : fileExtLower file = gzExt
  · rw [processFile_skip env st root file h1]; exact h
  · cases hr : readResult env st.disk (mkFPath root file) with
    | none => rw [processFile_readFail env st root file h1 hr]; exact h
    | some b =>
      cases hw : env.writeOk (mkFPath root file ++ gzExt) with
      | false =>
        obtain ⟨hd, ht⟩ := processFile_writeFail env st root file b h1 hr hw
        intro p hp
        rw [ht] at hp
        rw [hd]
        exact h p hp
      | true =>
        obtain ⟨hd, ht⟩ := processFile_success env st root file b h1 hr hw
        intro p hp
        rw [ht] at hp
        rw [hd, diskLookup_write]
        by_cases hk : mkFPath root file ++ gzExt = p ++ gzExt
        · exact ⟨_, if_pos hk⟩
        · rw [if_neg hk]
          rcases List.mem_append.mp hp with hp' | hp'
          · exact h p hp'
          · exact absurd (by rw [List.mem_singleton.mp hp']) hk

theorem runWalk_gzInv (env : Env) (entries : List (FPath × FPath)) (st : RunState)
    (h : gzWrittenInv env st) : gzWrittenInv env (runWalk env entries st) := by
  induction entries generalizing st with
  | nil => exact h
  | cons e rest ih => exact ih _ (processFile_gzInv env st e.1 e.2 h)

theorem processFile_success_full (env : Env) (st : RunState) (root file : FPath) (b : Bytes)
    (h1 : ¬ fileExtLower file = gzExt)
    (h2 : readResult env st.disk (mkFPath root file) = some b)
    (h3 : env.writeOk (mkFPath root file ++ gzExt) = true) :
    processFile env st root file =
      { disk := diskWrite st.disk (mkFPath root file ++ gzExt)
          (env.gzipC 9 (chooseContent (minifyResult env (fileExtLower file) b) b))
        toDelete := st.toDelete ++ [mkFPath root file]
        log := st.log ++ [LogEvent.processing (mkFPath root file)]
          ++ (if isTextExt (fileExtLower file) && (minifyResult env (fileExtLower file) b).isNone
              then [LogEvent.minifyWarn (mkFPath root file)] else [])
          ++ [if isTextExt (fileExtLower file) && (minifyResult env (fileExtLower file) b).isSome
              then LogEvent.successMinified (mkFPath root file ++ gzExt)
              else LogEvent.successNotMinified (mkFPath root file ++ gzExt)] } := by
  simp only [processFile, h1, if_false, h2, h3, if_true]
  split <;> next hcond => simp [hcond]

theorem minifyResult_html (env : Env) (b : Bytes) :
    minifyResult env htmlExt b = env.minifyHtml b := by
  unfold minifyResult
  rw [if_pos rfl]

theorem minifyResult_css (env : Env) (b : Bytes) :
    minifyResult env cssExt b = env.cssmin b := by
  unfold minifyResult
  rw [if_neg (by decide), if_pos rfl]

theorem minifyResult_js (env : Env) (b : Bytes) :
    minifyResult env jsExt b = env.jsmin b := by
  unfold minifyResult
  rw [if_neg (by decide), if_neg (by decide), if_pos rfl]

theorem mkFPath_append (root file ext : FPath) :
    mkFPath root file ++ ext = mkFPath root (file ++ ext) := by
  simp [mkFPath, List.append_assoc]

/-- C3: for every file with extension `.html`, `.css`, or `.js` whose
minification raises an error (for example invalid UTF-8 or malformed input),
the `.gz` written for it decompresses to exactly the original raw bytes, and
the exception does not escape: the per-file step returns normally, logging a
warning followed by the (not-minified) success line. -/
theorem minify_failure_gz_holds_original_bytes (env : Env) (st : RunState)
    (root file : FPath) (b : Bytes)
    (hcase : (fileExtLower file = htmlExt ∧ env.minifyHtml b = none)
      ∨ (fileExtLower file = cssExt ∧ env.cssmin b = none)
      ∨ (fileExtLower file = jsExt ∧ env.jsmin b = none))
    (hread : readResult env st.disk (mkFPath root file) = some b)
    (hwrite : env.writeOk (mkFPath root file ++ gzExt) = true) :
    diskLookup (processFile env st root file).disk (mkFPath root file ++ gzExt)
      = some (env.gzipC 9 b)
    ∧ (processFile env st root file).log
      = st.log ++ [LogEvent.processing (mkFPath root file),
          LogEvent.minifyWarn (mkFPath root file),
          LogEvent.successNotMinified (mkFPath root file ++ gzExt)] := by
  have h1 : ¬ fileExtLower file = gzExt := by
    rcases hcase with ⟨h, _⟩ | ⟨h, _⟩ | ⟨h, _⟩ <;> rw [h] <;> decide
  have hmin : minifyResult env (fileExtLower file) b = none := by
    rcases hcase with ⟨h, hm⟩ | ⟨h, hm⟩ | ⟨h, hm⟩ <;> rw [h]
    · rw [minifyResult_html]; exact hm
    · rw [minifyResult_css]; exact hm
    · rw [minifyResult_js]; exact hm
  have htext : isTextExt (fileExtLower file) = true := by
    rcases hcase with ⟨h, _⟩ | ⟨h, _⟩ | ⟨h, _⟩ <;> rw [h] <;> decide
  rw [processFile_success_full env st root file b h1 hread hwrite]
  constructor
  · simp [diskLookup_write, hmin, chooseContent]
  · simp [hmin, htext]

/-- Witness for `minify_failure_gz_holds_original_bytes`: a `.css` file whose
minifier raises; the written `.gz` holds the original bytes `[1, 2]`. -/
theorem minify_failure_gz_holds_original_bytes_witness :
    diskLookup (processFile envMinFail
        { disk := [(mkFPath "d".data "a.css".data, [1, 2])], toDelete := [], log := [] }
        "d".data "a.css".data).disk
        (mkFPath "d".data "a.css".data ++ gzExt)
      = some (envMinFail.gzipC 9 [1, 2])
    ∧ (processFile envMinFail
        { disk := [(mkFPath "d".data "a.css".data, [1, 2])], toDelete := [], log := [] }
        "d".data "a.css".data).log
      = [] ++ [LogEvent.processing (mkFPath "d".data "a.css".data),
          LogEvent.minifyWarn (mkFPath "d".data "a.css".data),
          LogEvent.successNotMinified (mkFPath "d".data "a.css".data ++ gzExt)] :=
  minify_failure_gz_holds_original_bytes envMinFail
    { disk := [(mkFPath "d".data "a.css".data, [1, 2])], toDelete := [], log := [] }
    "d".data "a.css".data [1, 2]
    (Or.inr (Or.inl ⟨by decide, rfl⟩)) (by decide) rfl

/-- C4: for every file whose lower-cased extension is none of `.html`, `.css`,
`.js`, or `.gz`, no transform is applied and the `.gz` written for it
decompresses to exactly the original raw bytes. -/
theorem unrecognized_ext_gz_holds_original_bytes (env : Env) (st : RunState)
    (root file : FPath) (b : Bytes)
    (hhtml : ¬ fileExtLower file = htmlExt)
    (hcss : ¬ fileExtLower file = cssExt)
    (hjs : ¬ fileExtLower file = jsExt)
    (hgz : ¬ fileExtLower file = gzExt)
    (hread : readResult env st.disk (mkFPath root file) = some b)
    (hwrite : env.writeOk (mkFPath root file ++ gzExt) = true) :
    diskLookup (processFile env st root file).disk (mkFPath root file ++ gzExt)
      = some (env.gzipC 9 b) := by
  have hmin : minifyResult env (fileExtLower file) b = none := by
    simp only [minifyResult, if_neg hhtml, if_neg hcss, if_neg hjs]
  rw [processFile_success_full env st root file b hgz hread hwrite]
  simp [diskLookup_write, hmin, chooseContent]

/-- Witness for `unrecognized_ext_gz_holds_original_bytes`: a `.png` file; the
written `.gz` holds the original bytes `[5, 6]`. -/
theorem unrecognized_ext_gz_holds_original_bytes_witness :
    diskLookup (processFile envMinDrop
        { disk := [(mkFPath "d".data "logo.png".data, [5, 6])], toDelete := [], log := [] }
        "d".data "logo.png".data).disk
        (mkFPath "d".data "logo.png".data ++ gzExt)
      = some (envMinDrop.gzipC 9 [5, 6]) :=
  unrecognized_ext_gz_holds_original_bytes envMinDrop
    { disk := [(mkFPath "d".data "logo.png".data, [5, 6])], toDelete := [], log := [] }
    "d".data "logo.png".data [5, 6]
    (by decide) (by decide) (by decide) (by decide) (by decide) rfl

/-- C2 counterexample: a `.css` file whose minifier succeeds and returns the
empty string.  The claim says the written `.gz` decompresses to the minified
form (here the empty byte string), but the code writes the compressed original
bytes instead (Python truthiness on line 85). -/
theorem empty_minified_output_not_written :
    envMinEmpty.cssmin [7, 8] = some []
    ∧ diskLookup (processFile envMinEmpty
        { disk := [(mkFPath "d".data "s.css".data, [7, 8])], toDelete := [], log := [] }
        "d".data "s.css".data).disk
        (mkFPath "d".data "s.css".data ++ gzExt)
      ≠ some (envMinEmpty.gzipC 9 [])
    ∧ diskLookup (processFile envMinEmpty
        { disk := [(mkFPath "d".data "s.css".data, [7, 8])], toDelete := [], log := [] }
        "d".data "s.css".data).disk
        (mkFPath "d".data "s.css".data ++ gzExt)
      = some (envMinEmpty.gzipC 9 [7, 8]) := by
  refine ⟨rfl, ?_, ?_⟩ <;> decide

/-- C2 (amended): for every `.html`/`.css`/`.js` file whose content decodes and
is minified without error and whose minified form is nonempty, the `.gz`
written for it decompresses to the minified form. -/
theorem gz_decompresses_to_nonempty_minified_form (env : Env) (st : RunState)
    (root file : FPath) (b m : Bytes)
    (hcase : (fileExtLower file = htmlExt ∧ env.minifyHtml b = some m)
      ∨ (fileExtLower file = cssExt ∧ env.cssmin b = some m)
      ∨ (fileExtLower file = jsExt ∧ env.jsmin b = some m))
    (hne : ¬ m = [])
    (hread : readResult env st.disk (mkFPath root file) = some b)
    (hwrite : env.writeOk (mkFPath root file ++ gzExt) = true) :
    diskLookup (processFile env st root file).disk (mkFPath root file ++ gzExt)
      = some (env.gzipC 9 m) := by
  have h1 : ¬ fileExtLower file = gzExt := by
    rcases hcase with ⟨h, _⟩ | ⟨h, _⟩ | ⟨h, _⟩ <;> rw [h] <;> decide
  have hmin : minifyResult env (fileExtLower file) b = some m := by
    rcases hcase with ⟨h, hm⟩ | ⟨h, hm⟩ | ⟨h, hm⟩ <;> rw [h]
    · rw [minifyResult_html]; exact hm
    · rw [minifyResult_css]; exact hm
    · rw [minifyResult_js]; exact hm
  rw [processFile_success_full env st root file b h1 hread hwrite]
  simp [diskLookup_write, hmin, chooseContent, hne]

/-- Witness for `gz_decompresses_to_nonempty_minified_form`: a `.css` file with
bytes `[7, 8]` minified to the nonempty `[7]`. -/
theorem gz_decompresses_to_nonempty_minified_form_witness :
    diskLookup (processFile envMinDrop
        { disk := [(mkFPath "d".data "s.css".data, [7, 8])], toDelete := [], log := [] }
        "d".data "s.css".data).disk
        (mkFPath "d".data "s.css".data ++ gzExt)
      = some (envMinDrop.gzipC 9 [7]) :=
  gz_decompresses_to_nonempty_minified_form envMinDrop
    { disk := [(mkFPath "d".data "s.css".data, [7, 8])], toDelete := [], log := [] }
    "d".data "s.css".data [7, 8] [7]
    (Or.inr (Or.inl ⟨by decide, rfl⟩)) (by decide) (by decide) rfl

/-- C9: for every `.html`/`.css`/`.js` file whose minification succeeds but
returns the empty string, the written `.gz` holds the compressed original raw
bytes (Python truthiness on line 85 makes the empty result falsy), while the
success log line nevertheless reports the file as minified (is_minified was set
on line 79). -/
theorem empty_minify_result_falls_back_but_logs_minified (env : Env) (st : RunState)
    (root file : FPath) (b : Bytes)
    (hcase : (fileExtLower file = htmlExt ∧ env.minifyHtml b = some [])
      ∨ (fileExtLower file = cssExt ∧ env.cssmin b = some [])
      ∨ (fileExtLower file = jsExt ∧ env.jsmin b = some []))
    (hread : readResult env st.disk (mkFPath root file) = some b)
    (hwrite : env.writeOk (mkFPath root file ++ gzExt) = true) :
    diskLookup (processFile env st root file).disk (mkFPath root file ++ gzExt)
      = some (env.gzipC 9 b)
    ∧ (processFile env st root file).log
      = st.log ++ [LogEvent.processing (mkFPath root file),
          LogEvent.successMinified (mkFPath root file ++ gzExt)] := by
  have h1 : ¬ fileExtLower file = gzExt := by
    rcases hcase with ⟨h, _⟩ | ⟨h, _⟩ | ⟨h, _⟩ <;> rw [h] <;> decide
  have hmin : minifyResult env (fileExtLower file) b = some [] := by
    rcases hcase with ⟨h, hm⟩ | ⟨h, hm⟩ | ⟨h, hm⟩ <;> rw [h]
    · rw [minifyResult_html]; exact hm
    · rw [minifyResult_css]; exact hm
    · rw [minifyResult_js]; exact hm
  have htext : isTextExt (fileExtLower file) = true := by
    rcases hcase with ⟨h, _⟩ | ⟨h, _⟩ | ⟨h, _⟩ <;> rw [h] <;> decide
  rw [processFile_success_full env st root file b h1 hread hwrite]
  constructor
  · simp [diskLookup_write, hmin, chooseContent]
  · simp [hmin, htext]

/-- Witness for `empty_minify_result_falls_back_but_logs_minified`: a `.css`
file with bytes `[7, 8]` whose minifier returns the empty string; the `.gz`
holds the original bytes and the log line says "minified". -/
theorem empty_minify_result_falls_back_but_logs_minified_witness :
    diskLookup (processFile envMinEmpty
        { disk := [(mkFPath "d".data "s.css".data, [7, 8])], toDelete := [], log := [] }
        "d".data "s.css".data).disk
        (mkFPath "d".data "s.css".data ++ gzExt)
      = some (envMinEmpty.gzipC 9 [7, 8])
    ∧ (processFile envMinEmpty
        { disk := [(mkFPath "d".data "s.css".data, [7, 8])], toDelete := [], log := [] }
        "d".data "s.css".data).log
      = [] ++ [LogEvent.processing (mkFPath "d".data "s.css".data),
          LogEvent.successMinified (mkFPath "d".data "s.css".data ++ gzExt)] :=
  empty_minify_result_falls_back_but_logs_minified envMinEmpty
    { disk := [(mkFPath "d".data "s.css".data, [7, 8])], toDelete := [], log := [] }
    "d".data "s.css".data [7, 8]
    (Or.inr (Or.inl ⟨by decide, rfl⟩)) (by decide) rfl

/-- C10: a file whose entire basename is exactly `.gz` has no extension for
`os.path.splitext`, so the skip check does not fire: the file is compressed to
a sibling named `.gz.gz` and the original `.gz` file is queued for deletion. -/
theorem dotfile_gz_is_processed_not_skipped (env : Env) (st : RunState)
    (root : FPath) (b : Bytes)
    (hread : readResult env st.disk (mkFPath root ".gz".data) = some b)
    (hwrite : env.writeOk (mkFPath root ".gz".data ++ gzExt) = true) :
    fileExtLower ".gz".data = []
    ∧ diskLookup (processFile env st root ".gz".data).disk
        (mkFPath root ".gz.gz".data) = some (env.gzipC 9 b)
    ∧ (processFile env st root ".gz".data).toDelete
        = st.toDelete ++ [mkFPath root ".gz".data] := by
  have h1 : ¬ fileExtLower ".gz".data = gzExt := by decide
  have hmin : minifyResult env (fileExtLower ".gz".data) b = none := by
    rw [show fileExtLower ".gz".data = [] from by decide]
    unfold minifyResult
    rw [if_neg (by decide), if_neg (by decide), if_neg (by decide)]
  have hpath : mkFPath root ".gz".data ++ gzExt = mkFPath root ".gz.gz".data := by
    rw [mkFPath_append, show ".gz".data ++ gzExt = ".gz.gz".data from by decide]
  refine ⟨by decide, ?_, ?_⟩
  · rw [← hpath, processFile_success_full env st root ".gz".data b h1 hread hwrite]
    simp [diskLookup_write, hmin, chooseContent]
  · rw [(processFile_success_full env st root ".gz".data b h1 hread hwrite)]

/-- Witness for `dotfile_gz_is_processed_not_skipped`: a file `d/.gz` with
bytes `[3]` is compressed to `d/.gz.gz` and queued for deletion. -/
theorem dotfile_gz_is_processed_not_skipped_witness :
    fileExtLower ".gz".data = []
    ∧ diskLookup (processFile envMinFail
        { disk := [(mkFPath "d".data ".gz".data, [3])], toDelete := [], log := [] }
        "d".data ".gz".data).disk
        (mkFPath "d".data ".gz.gz".data) = some (envMinFail.gzipC 9 [3])
    ∧ (processFile envMinFail
        { disk := [(mkFPath "d".data ".gz".data, [3])], toDelete := [], log := [] }
        "d".data ".gz".data).toDelete
      = [] ++ [mkFPath "d".data ".gz".data] :=
  dotfile_gz_is_processed_not_skipped envMinFail
    { disk := [(mkFPath "d".data ".gz".data, [3])], toDelete := [], log := [] }
    "d".data [3] (by decide) rfl

theorem processFile_noop (env : Env) (st : RunState) (root file : FPath)
    (h : env.readOk (mkFPath root file) = false
      ∨ env.writeOk (mkFPath root file ++ gzExt) = false) :
    (processFile env st root file).disk = st.disk
    ∧ (processFile env st root file).toDelete = st.toDelete := by
  by_cases h1 : fileExtLower file = gzExt
  · rw [processFile_skip env st root file h1]; exact ⟨rfl, rfl⟩
  · cases hr : readResult env st.disk (mkFPath root file) with
    | none => rw [processFile_readFail env st root file h1 hr]; exact ⟨rfl, rfl⟩
    | some b =>
      rcases h with h | h
      · exfalso
        unfold readResult at hr
        rw [h] at hr
        simp at hr
      · exact processFile_writeFail env st root file b h1 hr h

/-- C6: a failure reading one file, or a failure compressing/writing one
file's `.gz`, is isolated to that file: the resulting disk and deletion queue
are exactly those of the run over the remaining entries, so no `.gz` is
produced for the failing file, it is not queued for deletion, every other
discovered file is still processed the same way, and the run (a total
function) completes without an early abort. -/
theorem per_file_failure_isolated (env : Env) (l1 l2 : List (FPath × FPath))
    (st : RunState) (root file : FPath)
    (hfail : env.readOk (mkFPath root file) = false
      ∨ env.writeOk (mkFPath root file ++ gzExt) = false) :
    (runWalk env (l1 ++ (root, file) :: l2) st).disk = (runWalk env (l1 ++ l2) st).disk
    ∧ (runWalk env (l1 ++ (root, file) :: l2) st).toDelete
      = (runWalk env (l1 ++ l2) st).toDelete := by
  rw [runWalk_append, runWalk_append,
    show runWalk env ((root, file) :: l2) (runWalk env l1 st)
      = runWalk env l2 (processFile env (runWalk env l1 st) root file) from rfl]
  obtain ⟨hd, ht⟩ := processFile_noop env (runWalk env l1 st) root file hfail
  exact runWalk_log_irrel env l2 _ _ hd ht

/-- Witness for `per_file_failure_isolated`: with reading of `d/bad.txt`
failing, the walk over `d/a.txt`, `d/bad.txt`, `d/c.txt` produces the same
disk and deletion queue as the walk without `d/bad.txt`. -/
theorem per_file_failure_isolated_witness :
    (runWalk envReadFailBad
        ([("d".data, "a.txt".data)] ++ ("d".data, "bad.txt".data) :: [("d".data, "c.txt".data)])
        { disk := [(mkFPath "d".data "a.txt".data, [1]),
            (mkFPath "d".data "bad.txt".data, [2]),
            (mkFPath "d".data "c.txt".data, [3])], toDelete := [], log := [] }).disk
      = (runWalk envReadFailBad
        ([("d".data, "a.txt".data)] ++ [("d".data, "c.txt".data)])
        { disk := [(mkFPath "d".data "a.txt".data, [1]),
            (mkFPath "d".data "bad.txt".data, [2]),
            (mkFPath "d".data "c.txt".data, [3])], toDelete := [], log := [] }).disk
    ∧ (runWalk envReadFailBad
        ([("d".data, "a.txt".data)] ++ ("d".data, "bad.txt".data) :: [("d".data, "c.txt".data)])
        { disk := [(mkFPath "d".data "a.txt".data, [1]),
            (mkFPath "d".data "bad.txt".data, [2]),
            (mkFPath "d".data "c.txt".data, [3])], toDelete := [], log := [] }).toDelete
      = (runWalk envReadFailBad
        ([("d".data, "a.txt".data)] ++ [("d".data, "c.txt".data)])
        { disk := [(mkFPath "d".data "a.txt".data, [1]),
            (mkFPath "d".data "bad.txt".data, [2]),
            (mkFPath "d".data "c.txt".data, [3])], toDelete := [], log := [] }).toDelete :=
  per_file_failure_isolated envReadFailBad
    [("d".data, "a.txt".data)] [("d".data, "c.txt".data)]
    { disk := [(mkFPath "d".data "a.txt".data, [1]),
        (mkFPath "d".data "bad.txt".data, [2]),
        (mkFPath "d".data "c.txt".data, [3])], toDelete := [], log := [] }
    "d".data "bad.txt".data (Or.inl (by decide))

theorem deleteLoop_append (env : Env) (l1 l2 : List FPath) (st : RunState) :
    deleteLoop env (l1 ++ l2) st = deleteLoop env l2 (deleteLoop env l1 st) := by
  induction l1 generalizing st with
  | nil => rfl
  | cons p rest ih =>
    simp only [List.cons_append, deleteLoop]
    exact ih _

theorem deleteLoop_disk_irrel (env : Env) (l : List FPath) (st st' : RunState)
    (hd : st.disk = st'.disk) :
    (deleteLoop env l st).disk = (deleteLoop env l st').disk := by
  induction l generalizing st st' with
  | nil => exact hd
  | cons p rest ih =>
    simp only [deleteLoop]
    apply ih
    unfold deleteOne
    by_cases hdel : env.deleteOk p = true
    · rw [if_pos hdel, if_pos hdel]
      simp [hd]
    · rw [if_neg hdel, if_neg hdel]
      exact hd

/-- C8: if the configured root directory does not exist, the run is a no-op:
the disk is untouched (nothing read, written, or deleted), nothing is queued,
and the only effect is the log line. -/
theorem missing_root_dir_is_noop (env : Env) (entries : List (FPath × FPath)) (d0 : Disk) :
    minify_and_gzip_web_files env false entries d0
      = { disk := d0, toDelete := [], log := [LogEvent.missingDir] } := rfl

/-- C7: (1) at the end of the walk over any entry list, every path in
`files_to_delete` already has its `.gz` counterpart on disk holding level-9
gzip output (and walk prefixes are themselves entry lists, so this holds
throughout the walk); (2) the walk itself deletes nothing: every file present
before it is still present when it completes, deletions being deferred to the
second pass; (3) each deferred deletion is attempted independently, so a
failing deletion leaves the effect of all remaining deletions unchanged. -/
theorem deferred_deletion_invariants (env : Env) (entries : List (FPath × FPath))
    (d0 : Disk) (k : FPath) (v : Bytes) (p : FPath) (l1 l2 : List FPath) (st : RunState)
    (hk : diskLookup d0 k = some v)
    (hp : env.deleteOk p = false) :
    gzWrittenInv env (runWalk env entries { disk := d0, toDelete := [], log := [] })
    ∧ (∃ v', diskLookup
        (runWalk env entries { disk := d0, toDelete := [], log := [] }).disk k = some v')
    ∧ (deleteLoop env (l1 ++ p :: l2) st).disk = (deleteLoop env (l1 ++ l2) st).disk := by
  refine ⟨?_, ?_, ?_⟩
  · apply runWalk_gzInv
    intro q hq
    cases hq
  · exact runWalk_disk_mono env entries _ k v hk
  · rw [deleteLoop_append, deleteLoop_append,
      show deleteLoop env (p :: l2) (deleteLoop env l1 st)
        = deleteLoop env l2 (deleteOne env (deleteLoop env l1 st) p) from rfl]
    apply deleteLoop_disk_irrel
    unfold deleteOne
    rw [if_neg (by rw [hp]; exact Bool.false_ne_true)]

/-- Witness for `deferred_deletion_invariants` at a concrete run: one entry
`d/a.txt` on disk, and a deletion list containing the failing `d/x.txt`. -/
theorem deferred_deletion_invariants_witness :
    gzWrittenInv envDelFailX (runWalk envDelFailX [("d".data, "a.txt".data)]
      { disk := [(mkFPath "d".data "a.txt".data, [1])], toDelete := [], log := [] })
    ∧ (∃ v', diskLookup
        (runWalk envDelFailX [("d".data, "a.txt".data)]
          { disk := [(mkFPath "d".data "a.txt".data, [1])], toDelete := [], log := [] }).disk
        (mkFPath "d".data "a.txt".data) = some v')
    ∧ (deleteLoop envDelFailX
        ([mkFPath "d".data "a.txt".data] ++ mkFPath "d".data "x.txt".data :: [mkFPath "d".data "b.txt".data])
        { disk := [(mkFPath "d".data "a.txt".data, [1])], toDelete := [], log := [] }).disk
      = (deleteLoop envDelFailX
        ([mkFPath "d".data "a.txt".data] ++ [mkFPath "d".data "b.txt".data])
        { disk := [(mkFPath "d".data "a.txt".data, [1])], toDelete := [], log := [] }).disk :=
  deferred_deletion_invariants envDelFailX [("d".data, "a.txt".data)]
    [(mkFPath "d".data "a.txt".data, [1])]
    (mkFPath "d".data "a.txt".data) [1]
    (mkFPath "d".data "x.txt".data)
    [mkFPath "d".data "a.txt".data] [mkFPath "d".data "b.txt".data]
    { disk := [(mkFPath "d".data "a.txt".data, [1])], toDelete := [], log := [] }
    rfl (by decide)

/-- C1: in a run over an existing root in which every per-file stage succeeds,
every file originally present whose final extension is not `.gz`
(case-insensitively) is gone afterwards, and a sibling `<path>.gz` exists
holding gzip output at the maximum compression level 9.  The side condition
`hsib` says that any discovered file whose path coincides with `<path>.gz` is
itself recognized as gzipped (true of every normal file name ending in `.gz`;
only all-dot basenames such as `..gz` violate it). -/
theorem run_replaces_eligible_files_with_gz (env : Env)
    (entries : List (FPath × FPath)) (d0 : Disk) (root file : FPath) (v : Bytes)
    (hallr : ∀ p, env.readOk p = true)
    (hallw : ∀ p, env.writeOk p = true)
    (halld : ∀ p, env.deleteOk p = true)
    (hmem : (root, file) ∈ entries)
    (hext : ¬ fileExtLower file = gzExt)
    (hpres : diskLookup d0 (mkFPath root file) = some v)
    (hsib : ∀ e ∈ entries, mkFPath e.1 e.2 = mkFPath root file ++ gzExt
      → fileExtLower e.2 = gzExt) :
    diskLookup (minify_and_gzip_web_files env true entries d0).disk
      (mkFPath root file) = none
    ∧ ∃ c, diskLookup (minify_and_gzip_web_files env true entries d0).disk
        (mkFPath root file ++ gzExt) = some (env.gzipC 9 c) := by
  have hrun : minify_and_gzip_web_files env true entries d0
      = deleteLoop env
          (runWalk env entries { disk := d0, toDelete := [], log := [] }).toDelete
          (runWalk env entries { disk := d0, toDelete := [], log := [] }) := rfl
  have hq : mkFPath root file
      ∈ (runWalk env entries { disk := d0, toDelete := [], log := [] }).toDelete :=
    runWalk_queued env entries _ root file hmem hext (hallr _) (hallw _) ⟨v, hpres⟩
  have hw : ∃ c, diskLookup
      (runWalk env entries { disk := d0, toDelete := [], log := [] }).disk
      (mkFPath root file ++ gzExt) = some (env.gzipC 9 c) :=
    runWalk_written env entries _ root file hmem hext (hallr _) (hallw _) ⟨v, hpres⟩
  have hdl := deleteLoop_disk env
    (runWalk env entries { disk := d0, toDelete := [], log := [] }).toDelete
    (runWalk env entries { disk := d0, toDelete := [], log := [] })
  constructor
  · rw [hrun, hdl.1]
    exact delDisk_mem env _ _ _ hq (halld _)
  · obtain ⟨c, hc⟩ := hw
    have hnot : ¬ mkFPath root file ++ gzExt
        ∈ (runWalk env entries { disk := d0, toDelete := [], log := [] }).toDelete := by
      intro hmem'
      rcases runWalk_toDelete_src env entries _ _ hmem' with h0 | ⟨e, he, hpe, hexte⟩
      · cases h0
      · exact hexte (hsib e he hpe.symm)
    rw [hrun, hdl.1, delDisk_notmem env _ _ _ hnot]
    exact ⟨c, hc⟩

/-- Witness for `run_replaces_eligible_files_with_gz`: a run over the single
file `d/a.txt` with bytes `[1, 2]`; afterwards `d/a.txt` is gone and
`d/a.txt.gz` holds gzip output. -/
theorem run_replaces_eligible_files_with_gz_witness :
    diskLookup (minify_and_gzip_web_files envMinFail true
        [("d".data, "a.txt".data)] [(mkFPath "d".data "a.txt".data, [1, 2])]).disk
      (mkFPath "d".data "a.txt".data) = none
    ∧ ∃ c, diskLookup (minify_and_gzip_web_files envMinFail true
        [("d".data, "a.txt".data)] [(mkFPath "d".data "a.txt".data, [1, 2])]).disk
      (mkFPath "d".data "a.txt".data ++ gzExt) = some (envMinFail.gzipC 9 c) :=
  run_replaces_eligible_files_with_gz envMinFail
    [("d".data, "a.txt".data)] [(mkFPath "d".data "a.txt".data, [1, 2])]
    "d".data "a.txt".data [1, 2]
    (fun _ => rfl) (fun _ => rfl) (fun _ => rfl)
    (by decide) (by decide) rfl (by decide)

/-- C5 counterexample: when both `d/a` and `d/a.gz` exist, the run over them
(with every stage succeeding) overwrites the pre-existing `d/a.gz` with the
compressed content of `d/a`, so the `*.gz` file is not byte-identical after
the run, refuting the claim that every `*.gz` file is left completely
untouched. -/
theorem gz_file_overwritten_when_stem_sibling_exists :
    diskLookup [(mkFPath "d".data "a".data, [1]), (mkFPath "d".data "a.gz".data, [5])]
      (mkFPath "d".data "a.gz".data) = some [5]
    ∧ diskLookup (minify_and_gzip_web_files envMinFail true
        [("d".data, "a".data), ("d".data, "a.gz".data)]
        [(mkFPath "d".data "a".data, [1]), (mkFPath "d".data "a.gz".data, [5])]).disk
      (mkFPath "d".data "a.gz".data) ≠ some [5] := by
  constructor
  · decide
  · decide

/-- C5 (amended): a file whose extension is `.gz` is never itself processed
(its walk entry only logs a skip line, with no read, write, or queueing), and
provided no discovered file's compressed output path collides with it (no
entry whose path plus `.gz` equals this file's path — in particular no sibling
`name` next to `name.gz`), its bytes survive the whole run unchanged and it is
never deleted; moreover if `<its path>.gz` did not exist initially, none is
created, so no `.gz.gz` chaining occurs. -/
theorem gz_file_untouched_without_colliding_sibling (env : Env)
    (entries : List (FPath × FPath)) (d0 : Disk) (root file : FPath) (v : Bytes)
    (st : RunState)
    (hext : fileExtLower file = gzExt)
    (hpres : diskLookup d0 (mkFPath root file) = some v)
    (hnosib : ∀ e ∈ entries, ¬ mkFPath e.1 e.2 ++ gzExt = mkFPath root file)
    (hnodup : ∀ e ∈ entries, mkFPath e.1 e.2 = mkFPath root file
      → fileExtLower e.2 = gzExt)
    (hnogz : diskLookup d0 (mkFPath root file ++ gzExt) = none) :
    processFile env st root file
      = { st with log := st.log ++ [LogEvent.skippedGz (mkFPath root file)] }
    ∧ diskLookup (minify_and_gzip_web_files env true entries d0).disk
        (mkFPath root file) = some v
    ∧ diskLookup (minify_and_gzip_web_files env true entries d0).disk
        (mkFPath root file ++ gzExt) = none := by
  have hrun : minify_and_gzip_web_files env true entries d0
      = deleteLoop env
          (runWalk env entries { disk := d0, toDelete := [], log := [] }).toDelete
          (runWalk env entries { disk := d0, toDelete := [], log := [] }) := rfl
  have hdl := deleteLoop_disk env
    (runWalk env entries { disk := d0, toDelete := [], log := [] }).toDelete
    (runWalk env entries { disk := d0, toDelete := [], log := [] })
  refine ⟨processFile_skip env st root file hext, ?_, ?_⟩
  · have hwalk : diskLookup
        (runWalk env entries { disk := d0, toDelete := [], log := [] }).disk
        (mkFPath root file) = diskLookup d0 (mkFPath root file) :=
      runWalk_nowrite env entries _ _ (fun e he => Or.inr (hnosib e he))
    have hnot : ¬ mkFPath root file
        ∈ (runWalk env entries { disk := d0, toDelete := [], log := [] }).toDelete := by
      intro hmem'
      rcases runWalk_toDelete_src env entries _ _ hmem' with h0 | ⟨e, he, hpe, hexte⟩
      · cases h0
      · exact hexte (hnodup e he hpe.symm)
    rw [hrun, hdl.1, delDisk_notmem env _ _ _ hnot, hwalk]
    exact hpres
  · have hwalk : diskLookup
        (runWalk env entries { disk := d0, toDelete := [], log := [] }).disk
        (mkFPath root file ++ gzExt) = diskLookup d0 (mkFPath root file ++ gzExt) := by
      apply runWalk_nowrite
      intro e he
      by_cases hcol : mkFPath e.1 e.2 ++ gzExt = mkFPath root file ++ gzExt
      · exact Or.inl (hnodup e he (List.append_cancel_right hcol))
      · exact Or.inr hcol
    rw [hrun, hdl.1]
    apply delDisk_none
    rw [hwalk]
    exact hnogz

/-- Witness for `gz_file_untouched_without_colliding_sibling`: a run over
`d/x.txt` and `d/b.gz` with no sibling `d/b`; afterwards `d/b.gz` still holds
`[5]` and no `d/b.gz.gz` exists. -/
theorem gz_file_untouched_without_colliding_sibling_witness :
    processFile envMinFail { disk := [], toDelete := [], log := [] } "d".data "b.gz".data
      = { disk := [], toDelete := [],
          log := [] ++ [LogEvent.skippedGz (mkFPath "d".data "b.gz".data)] }
    ∧ diskLookup (minify_and_gzip_web_files envMinFail true
        [("d".data, "x.txt".data), ("d".data, "b.gz".data)]
        [(mkFPath "d".data "x.txt".data, [1]), (mkFPath "d".data "b.gz".data, [5])]).disk
      (mkFPath "d".data "b.gz".data) = some [5]
    ∧ diskLookup (minify_and_gzip_web_files envMinFail true
        [("d".data, "x.txt".data), ("d".data, "b.gz".data)]
        [(mkFPath "d".data "x.txt".data, [1]), (mkFPath "d".data "b.gz".data, [5])]).disk
      (mkFPath "d".data "b.gz".data ++ gzExt) = none :=
  gz_file_untouched_without_colliding_sibling envMinFail
    [("d".data, "x.txt".data), ("d".data, "b.gz".data)]
    [(mkFPath "d".data "x.txt".data, [1]), (mkFPath "d".data "b.gz".data, [5])]
    "d".data "b.gz".data [5] { disk := [], toDelete := [], log := [] }
    (by decide) (by decide) (by decide) (by decide) (by decide)


end MinifyGzip
